import Mathlib

/-!
Verification of the folder-tags plugin core (tag resolver, frontmatter codec,
content patcher) as a shallow embedding of the TypeScript source `main.ts`.
JS strings are modelled as `List Char`; JS arrays as `List`; JS objects with
string keys as insertion-ordered association lists.  JS `Set` keeps insertion
order and deduplicates by SameValueZero: strings by value, objects by
reference.  Where a `Set` is built from freshly allocated or pairwise-distinct
objects, it is the identity on the element list; this is noted at each use.
-/

/-- JS strings, modelled as their character sequences. -/
abbrev Str := List Char

/-- Conversion from Lean string literals to the `Str` model. -/
def str (s : String) : Str := s.toList

/-- JS `\s` whitespace class (ASCII part; the sources only meet ASCII). -/
def isJsWs (c : Char) : Bool :=
  c == ' ' || c == '\t' || c == '\n' || c == '\r' ||
    c == Char.ofNat 11 || c == Char.ofNat 12

/-- JS `\w` word-character class. -/
def isWordChar (c : Char) : Bool :=
  (decide ('a' ≤ c) && decide (c ≤ 'z')) ||
  (decide ('A' ≤ c) && decide (c ≤ 'Z')) ||
  (decide ('0' ≤ c) && decide (c ≤ '9')) || c == '_'

/-- JS `String.prototype.trimEnd`. -/
def jsTrimEnd (s : Str) : Str := (s.reverse.dropWhile isJsWs).reverse

/-- JS `String.prototype.trim`. -/
def jsTrim (s : Str) : Str := jsTrimEnd (s.dropWhile isJsWs)

/-- JS `String.prototype.split` with a one-character separator: always
returns at least one (possibly empty) segment. -/
def jsSplitChar (c : Char) : Str → List Str
  | [] => [[]]
  | x :: xs =>
    match jsSplitChar c xs with
    | [] => [[]]
    | h :: t => if x = c then [] :: h :: t else (x :: h) :: t

/-- JS `Array.prototype.join` with an arbitrary separator string. -/
def joinSep (sep : Str) : List Str → Str
  | [] => []
  | [x] => x
  | x :: y :: xs => x ++ sep ++ joinSep sep (y :: xs)

/-- A tag assignment as stored in settings / produced by the resolver
(source: `interface FolderTag { inherited: boolean; tag: string }`). -/
structure FolderTag where
  tag : Str
  inherited : Bool
deriving DecidableEq

/-- One settings record (source: `interface FolderTags { path; tags }`). -/
structure FolderRec where
  path : Str
  tags : List FolderTag
deriving DecidableEq

/-- `(t) => ({ tag: t.tag, inherited: true })` from `getInheritedTags`. -/
def remark (t : FolderTag) : FolderTag := ⟨t.tag, true⟩

/-- One step of the `currentPath` accumulation in `getInheritedTags`:
`if (currentPath) currentPath += "/"; currentPath += part`. -/
def pathStep (cp part : Str) : Str := (if cp ≠ [] then cp ++ ['/'] else []) ++ part

/-- The `for (const part of pathParts)` loop body of `getInheritedTags`,
threading `currentPath` and the accumulating `inheritedTags`. -/
def inheritLoop (settings : List FolderRec) : Str → List FolderTag → List Str → List FolderTag
  | _, acc, [] => acc
  | cp, acc, part :: rest =>
    let cp' := pathStep cp part
    let acc' :=
      match settings.find? (fun ft => ft.path == cp') with
      | some ft => acc.map remark ++ ft.tags.map remark
      | none => acc
    inheritLoop settings cp' acc' rest

/-- Source `getInheritedTags(path)`: split the path on `/`, `pop()` the last
segment, then walk the prefixes. -/
def getInheritedTags (settings : List FolderRec) (path : Str) : List FolderTag :=
  inheritLoop settings [] [] ((jsSplitChar '/' path).dropLast)

/-- Source `getFolderTags(folderPath)`.  The source's
`Array.from(new Set([...directTags, ...parentTags]))` deduplicates by object
reference only: `directTags` holds pairwise-distinct stored objects and
`parentTags` holds freshly allocated objects, so the `Set` round trip is the
identity on the concatenated list. -/
def getFolderTags (settings : List FolderRec) (path : Str) : List FolderTag :=
  (match settings.find? (fun ft => ft.path == path) with
    | some ft => ft.tags
    | none => []) ++ getInheritedTags settings path

/-- A JS runtime value appearing inside the frontmatter `tags` array: either a
string, or a `FolderTag` heap object (spread in from `tagsToAdd`). -/
inductive JVal where
  | s : Str → JVal
  | obj : FolderTag → JVal
deriving DecidableEq

/-- JS string coercion as used by `Array.prototype.join`: a plain object
stringifies to `"[object Object]"`. -/
def jsToString : JVal → Str
  | .s v => v
  | .obj _ => str "[object Object]"

/-- SameValueZero equality as used by `new Set`: strings compare by value;
two distinct heap objects never compare equal (all objects reaching the
`Set`s in this code are pairwise-distinct allocations). -/
def jvalEq : JVal → JVal → Bool
  | .s a, .s b => a == b
  | _, _ => false

/-- `new Set(list)` insertion: keep an element unless one already seen is
equal to it. -/
def jsDedupAux (eq : JVal → JVal → Bool) (seen : List JVal) : List JVal → List JVal
  | [] => []
  | x :: xs =>
    if seen.any (fun y => eq y x) then jsDedupAux eq seen xs
    else x :: jsDedupAux eq (x :: seen) xs

/-- `Array.from(new Set(list))`: first occurrences in insertion order. -/
def jsDedup (eq : JVal → JVal → Bool) (l : List JVal) : List JVal :=
  jsDedupAux eq [] l

/-- A parsed YAML value: a scalar string or an array. -/
inductive YVal where
  | scalar : Str → YVal
  | arr : List JVal → YVal
deriving DecidableEq

/-- A JS object with string keys, in insertion order. -/
abbrev YObj := List (Str × YVal)

def getKey (obj : YObj) (k : Str) : Option YVal :=
  (obj.find? (fun e => e.1 == k)).map (fun e => e.2)

/-- JS property assignment: overwrite in place, else append. -/
def setKey : YObj → Str → YVal → YObj
  | [], k, v => [(k, v)]
  | (k', v') :: rest, k, v =>
    if k' = k then (k, v) :: rest else (k', v') :: setKey rest k v

/-- JS `delete obj[k]`. -/
def delKey (obj : YObj) (k : Str) : YObj := obj.filter (fun e => e.1 != k)

/-- JS truthiness of a YAML value: the empty string is falsy, every array
(even empty) is truthy. -/
def yvalTruthy : YVal → Bool
  | .scalar s => s != []
  | .arr _ => true

/-- One iteration of the `for (const line of lines)` loop in `parseYaml`:
split on `:`, trim all parts, and store scalar or bracketed list. -/
def parseLineStep (obj : YObj) (line : Str) : YObj :=
  match (jsSplitChar ':' line).map jsTrim with
  | [] => obj
  | key :: values =>
    if key ≠ [] ∧ values ≠ [] then
      let v := jsTrim (joinSep [':'] values)
      if v.head? = some '[' ∧ v.getLast? = some ']' then
        setKey obj key (.arr (((jsSplitChar ',' (v.drop 1).dropLast).map jsTrim).map JVal.s))
      else
        setKey obj key (.scalar v)
    else obj

/-- `parseYaml` after the initial split on newlines.  The `try`/`catch` in the
source is dead: the body is total. -/
def parseYamlLines (lines : List Str) : YObj := lines.foldl parseLineStep []

/-- Source `parseYaml(yaml)`. -/
def parseYaml (yaml : Str) : YObj := parseYamlLines (jsSplitChar '\n' yaml)

/-- Source `stringifyYaml(obj)`: `key: [v1, v2]` for arrays (joined with
`", "`, objects coerced to `"[object Object]"`), `key: value` for scalars,
entries joined with newlines and no trailing newline. -/
def stringifyYaml (obj : YObj) : Str :=
  joinSep ['\n'] (obj.map (fun e =>
    match e.2 with
    | .arr xs => e.1 ++ str ": [" ++ joinSep (str ", ") (xs.map jsToString) ++ [']']
    | .scalar v => e.1 ++ str ": " ++ v))

/-- First occurrence split: `splitFirst pat s = some (pre, post)` with
`s = pre ++ pat ++ post` and `pre` shortest. -/
def splitFirst (pat : Str) : Str → Option (Str × Str)
  | [] => if pat = [] then some ([], []) else none
  | c :: rest =>
    if pat.isPrefixOf (c :: rest) then some ([], (c :: rest).drop pat.length)
    else match splitFirst pat rest with
      | some (pre, post) => some (c :: pre, post)
      | none => none

/-- The source's `frontmatterRegex` (anchored "---", newline, non-greedy
any-character group, newline, "---") applied to the raw content: the
non-greedy group is the text between the opening `---\n` and the earliest
following `\n---`.  Returns (group, text after the match). -/
def frontmatterMatch (content : Str) : Option (Str × Str) :=
  if (str "---\n").isPrefixOf content then
    splitFirst (str "\n---") (content.drop 4)
  else none

/-- The file's metadata cache entry as consumed by the patcher:
`frontmatter` is the cache's frontmatter presence, `tags` the inline-tag
texts (each including the leading `#`, as in `metadata.tags[i].tag`). -/
structure Metadata where
  frontmatter : Bool
  tags : List Str
deriving DecidableEq

/-- `yaml.tags || []` followed by `Array.isArray(x) ? x : [x]` in the add
path: a falsy `tags` value (absent key or empty-string scalar) yields the
empty array; a truthy scalar is wrapped in a singleton. -/
def yamlTagsOr (obj : YObj) : List JVal :=
  match getKey obj (str "tags") with
  | none => []
  | some v => if yvalTruthy v then
      (match v with
       | .arr xs => xs
       | .scalar s => [.s s])
    else []

/-- Source `addTagsToFileContent(file, newTags)`, as a function from the
file's raw content, its metadata-cache entry and the tag set (`Set` of
pairwise-distinct `FolderTag` objects, modelled as their insertion-order
list) to the content written, or `none` when no write happens.  The
frontmatter branch splices the template "---", newline, new frontmatter,
"---" over the regex match; `String.prototype.replace` dollar-patterns are
assumed absent from the serialized text (no dollar sign occurs in the inputs
considered here). -/
def addTagsToFileContent (content : Str) (metadata : Metadata)
    (newTags : List FolderTag) : Option Str :=
  if newTags = [] then none else
  let existingTags : List Str := metadata.tags.map (fun t => t.drop 1)
  let tagsToAdd := newTags.filter (fun t => !existingTags.contains t.tag)
  if tagsToAdd = [] then none else
  if metadata.frontmatter then
    match frontmatterMatch content with
    | some (g, rest) =>
      let yaml := parseYaml g
      let allTags := jsDedup jvalEq (yamlTagsOr yaml ++ tagsToAdd.map JVal.obj)
      let yaml2 := setKey yaml (str "tags") (.arr allTags)
      some (str "---\n" ++ stringifyYaml yaml2 ++ str "---" ++ rest)
    | none => none
  else
    let tagString := joinSep [' '] (tagsToAdd.map (fun t => '#' :: t.tag))
    some (jsTrimEnd content ++ str "\n\n" ++ tagString)

/-- Loose equality `t.tag == tag` between a tag-name string and a frontmatter
array element (an object coerces to its primitive `"[object Object]"`). -/
def jsLooseEq (t : Str) : JVal → Bool
  | .s v => t == v
  | .obj _ => t == str "[object Object]"

/-- The frontmatter phase of `removeTagsFromFileContent`: rewrite the block
when the cache reports frontmatter, the delimiters match, and the parsed
`tags` field is truthy; delete the `tags` key when the filtered list is
empty. -/
def removeFrontTags (content : Str) (metadata : Metadata)
    (tagsForRemoval : List FolderTag) : Str :=
  if metadata.frontmatter then
    match frontmatterMatch content with
    | some (g, rest) =>
      let yaml := parseYaml g
      match getKey yaml (str "tags") with
      | some v =>
        if yvalTruthy v then
          let existing : List JVal :=
            match v with
            | .arr xs => xs
            | .scalar s => [.s s]
          let filtered := existing.filter
            (fun jv => !tagsForRemoval.any (fun t => jsLooseEq t.tag jv))
          let yaml1 := setKey yaml (str "tags") (.arr filtered)
          let yaml2 := if filtered = [] then delKey yaml1 (str "tags") else yaml1
          str "---\n" ++ stringifyYaml yaml2 ++ str "---" ++ rest
        else content
      | none => content
    | none => content
  else content

/-- Last character of the matched alternative `#t`, for the `\b` check. -/
def lastOfAlt (t : Str) : Char := t.getLastD '#'

/-- JS `\b` right after the matched alternative: a word boundary between the
alternative's last character and the next input character (end of input
counts as non-word). -/
def boundaryOk (prev : Char) : Str → Bool
  | [] => isWordChar prev
  | c :: _ => isWordChar prev != isWordChar c

/-- Alternation `(#t1|#t2|...)` at the text after a consumed `#`: the first
alternative that matches and satisfies `\b` wins; returns the remaining
text. -/
def firstAlt (tags : List Str) (s : Str) : Option Str :=
  match tags with
  | [] => none
  | t :: ts =>
    if t.isPrefixOf s ∧ boundaryOk (lastOfAlt t) (s.drop t.length) then
      some (s.drop t.length)
    else firstAlt ts s

/-- One attempt of `/\s*(#t1|#t2|...)\b/` at the current position: consume
the maximal whitespace run (backtracking cannot help since every alternative
starts with `#`, which is not whitespace), then the alternation. -/
def tryMatch (tags : List Str) (s : Str) : Option Str :=
  match s.dropWhile isJsWs with
  | '#' :: rest => firstAlt tags rest
  | _ => none

/-- The global `replace(tagRegex, " ")` scan: at each position try the
pattern; on a match emit a single space and continue after it, else keep the
character.  Every match consumes at least one character, so fuel equal to
the input length suffices. -/
def removeInlineAux (tags : List Str) : Nat → Str → Str
  | _, [] => []
  | 0, s => s
  | Nat.succ n, c :: rest =>
    match tryMatch tags (c :: rest) with
    | some tail => ' ' :: removeInlineAux tags n tail
    | none => c :: removeInlineAux tags n rest

def removeInline (tags : List Str) (s : Str) : Str :=
  removeInlineAux tags s.length s

/-- Source `removeTagsFromFileContent(file, tagsForRemoval)`: frontmatter
phase, then inline removal over the (possibly rewritten) content (the joined
alternation is non-empty whenever the set is), then write only when the
final content differs from the original. -/
def removeTagsFromFileContent (content : Str) (metadata : Metadata)
    (tagsForRemoval : List FolderTag) : Option Str :=
  if tagsForRemoval = [] then none else
  let c1 := removeFrontTags content metadata tagsForRemoval
  let c2 := removeInline (tagsForRemoval.map (fun t => t.tag)) c1
  if c2 ≠ content then some c2 else none

/-- The removed-tag diff computed on modal submission in `addTagsToFolder`:
prior direct tags with no submitted entry agreeing on both `tag` and
`inherited` (loose equality on strings and booleans is value equality). -/
def removedTagsOf (currentTags newTags : List FolderTag) : List FolderTag :=
  currentTags.filter
    (fun tag => !newTags.any (fun t => t.tag == tag.tag && t.inherited == tag.inherited))

/-- The added set in `addTagsToFolder`: `new Set(newTags)` over
pairwise-distinct submitted objects, i.e. the whole submitted list. -/
def addedTagsOf (newTags : List FolderTag) : List FolderTag := newTags

/-- Both diff sets as passed to the per-file patching loop. -/
def folderSubmitSets (currentTags newTags : List FolderTag) :
    List FolderTag × List FolderTag :=
  (removedTagsOf currentTags newTags, addedTagsOf newTags)

/-- The file selection of the bulk edit in `addTagsToFolder`:
`getFiles().filter(file => file.path.startsWith(folder.path))`. -/
def bulkSelect (folderPath : Str) (filePaths : List Str) : List Str :=
  filePaths.filter (fun p => folderPath.isPrefixOf p)

/-- Scanner state while extracting inline tags: `some acc` when inside a tag
whose name so far is `acc`. -/
def flushState : Option Str → List Str
  | none => []
  | some acc => if acc = [] then [] else ['#' :: acc]

/-- Modelled from the spec: the metadata cache's inline-tag extraction (§6,
"inlineTags: list of { text }"), not part of the repository sources.  A tag
is a `#` followed by a maximal non-empty run of word characters; the emitted
text keeps the leading `#` as in `metadata.tags[i].tag`. -/
def extractAux : Option Str → Str → List Str
  | st, [] => flushState st
  | none, c :: rest =>
    if c = '#' then extractAux (some []) rest else extractAux none rest
  | some acc, c :: rest =>
    if isWordChar c then extractAux (some (acc ++ [c])) rest
    else flushState (some acc) ++ extractAux (if c = '#' then some [] else none) rest

def extractTags (s : Str) : List Str := extractAux none s

/-- Tags emitted by `extractAux` before the input is exhausted (companion
function used to reason about scans of concatenated inputs). -/
def extractPartial : Option Str → Str → List Str
  | _, [] => []
  | none, c :: rest => extractPartial (if c = '#' then some [] else none) rest
  | some acc, c :: rest =>
    if isWordChar c then extractPartial (some (acc ++ [c])) rest
    else flushState (some acc) ++ extractPartial (if c = '#' then some [] else none) rest

/-- Scanner state after consuming the input (companion to `extractAux`). -/
def finalState : Option Str → Str → Option Str
  | st, [] => st
  | none, c :: rest => finalState (if c = '#' then some [] else none) rest
  | some acc, c :: rest =>
    if isWordChar c then finalState (some (acc ++ [c])) rest
    else finalState (if c = '#' then some [] else none) rest

/-- Modelled from the spec: the external metadata cache (§6), computed from
the raw content it indexes — frontmatter presence via the leading delimited
block, inline tags via `extractTags`.  Used where a claim speaks of the
cache reflecting a file's (possibly just written) content. -/
def mkCache (content : Str) : Metadata :=
  ⟨(frontmatterMatch content).isSome, extractTags content⟩

/-- Path join as performed by the resolver's walk when every segment is
non-empty: segments separated by single slashes. -/
def joinPath : List Str → Str
  | [] => []
  | [p] => p
  | p :: q :: rest => p ++ '/' :: joinPath (q :: rest)

/-- The key the parser computes for a line: the first `:`-split segment,
trimmed. -/
def yamlKeyOf (line : Str) : Str := jsTrim ((jsSplitChar ':' line).headD [])

/-- A frontmatter line that the parser skips: no separator, or an empty
trimmed key. -/
def badYamlLine (line : Str) : Prop := ':' ∉ line ∨ yamlKeyOf line = []

/-- Substring occurrence test (JS `String.prototype.includes`). -/
def strContains (pat s : Str) : Bool := (splitFirst pat s).isSome

/-- The trailing whitespace removed by `jsTrimEnd`. -/
def trailWs (s : Str) : Str := (s.reverse.takeWhile isJsWs).reverse

/-- The `currentPath` value after folding some path parts, starting from a
given accumulator (the loop state of `getInheritedTags`). -/
def pathFrom (cp : Str) (parts : List Str) : Str := parts.foldl pathStep cp

lemma jsSplitChar_ne_nil (c : Char) (l : Str) : jsSplitChar c l ≠ [] := by
  cases l with
  | nil => simp [jsSplitChar]
  | cons x xs =>
    simp only [jsSplitChar]
    cases jsSplitChar c xs with
    | nil => simp
    | cons h t =>
      split
      · simp
      · split <;> simp

lemma jsSplitChar_nosep (c : Char) (l : Str) (h : c ∉ l) :
    jsSplitChar c l = [l] := by
  induction l with
  | nil => rfl
  | cons x xs ih =>
    simp only [List.mem_cons, not_or] at h
    simp only [jsSplitChar, ih h.2]
    rw [if_neg (by exact fun hc => h.1 hc.symm)]

lemma parseLineStep_skip (obj : YObj) (line : Str) (h : badYamlLine line) :
    parseLineStep obj line = obj := by
  rcases h with h | h
  · rw [parseLineStep, jsSplitChar_nosep ':' line h]
    simp
  · rw [parseLineStep]
    cases e : jsSplitChar ':' line with
    | nil => exact absurd e (jsSplitChar_ne_nil ':' line)
    | cons hd tl =>
      have hk : jsTrim hd = [] := by
        rw [yamlKeyOf, e] at h
        simpa using h
      simp only [List.map_cons]
      rw [if_neg]
      intro hc
      exact hc.1 hk

lemma isPrefixOf_self_append (l t : Str) : l.isPrefixOf (l ++ t) = true := by
  induction l with
  | nil => simp [List.isPrefixOf]
  | cons x xs ih => simp [List.isPrefixOf, ih]

/-- C1 (code bug): adding tag `c` to a file whose frontmatter reads
`tags: [a, b]` does not produce `tags: [a, b, c]`.  The spread of the
`FolderTag` objects into the YAML array makes the serializer emit
`[object Object]`, and the splice template drops the newline before the
closing delimiter, so the block is no longer parseable; the subsequent
removal of `a` then finds no frontmatter and no inline occurrence, and
performs no write at all rather than producing `tags: [b, c]`.  This
contradicts the repository's own test, which expects
`tags: [existingtag, newtag]` from the same call. -/
theorem C1_frontmatter_roundtrip_eval :
    addTagsToFileContent (str "---\ntags: [a, b]\n---\nContent")
        (mkCache (str "---\ntags: [a, b]\n---\nContent")) [⟨str "c", false⟩] =
      some (str "---\ntags: [a, b, [object Object]]---\nContent") ∧
    removeTagsFromFileContent (str "---\ntags: [a, b, [object Object]]---\nContent")
        (mkCache (str "---\ntags: [a, b, [object Object]]---\nContent"))
        [⟨str "a", false⟩] = none := by
  exact ⟨by decide, by decide⟩

/-- C2 (code bug): with tag name `x` declared directly on folder `a/b` and
also on its ancestor `a`, `getFolderTags "a/b"` returns two entries named
`x` — one direct, one inherited — because `new Set` deduplicates the
`FolderTag` heap objects by reference, never by tag name, contradicting the
code's own "Combine and deduplicate tags" comment and the spec invariant
that a resolved set has at most one entry per tag name. -/
theorem C2_duplicate_tag_eval :
    getFolderTags [⟨str "a", [⟨str "x", false⟩]⟩, ⟨str "a/b", [⟨str "x", false⟩]⟩]
      (str "a/b") = [⟨str "x", false⟩, ⟨str "x", true⟩] := by decide

/-- C3 counterexample: removing `{tag1}` from `"Content #tag1 #tag2"`
yields `"Content  #tag2"`, which contains two consecutive spaces — the
match `" #tag1"` is replaced by a single space, but the space introducing
`#tag2` remains right after it — contradicting the claim that no two
consecutive spaces occur in the result. -/
theorem C3_double_space_cex :
    removeTagsFromFileContent (str "Content #tag1 #tag2") ⟨false, []⟩
        [⟨str "tag1", false⟩] = some (str "Content  #tag2") ∧
    strContains (str "  ") (str "Content  #tag2") = true := by
  exact ⟨by decide, by decide⟩

/-- C3 (amended): for every metadata-cache value, removing `{tag1}` from
`"Content #tag1 #tag2"` yields exactly `"Content  #tag2"`: `#tag2` is kept,
`#tag1` is gone, but a double space is introduced where the tag was
removed. -/
theorem C3_remove_inline_amended (m : Metadata) :
    removeTagsFromFileContent (str "Content #tag1 #tag2") m
        [⟨str "tag1", false⟩] = some (str "Content  #tag2") ∧
    strContains (str "#tag2") (str "Content  #tag2") = true ∧
    strContains (str "#tag1") (str "Content  #tag2") = false ∧
    strContains (str "  ") (str "Content  #tag2") = true := by
  obtain ⟨fm, tg⟩ := m
  cases fm
  · exact ⟨by rfl, by decide, by decide, by decide⟩
  · exact ⟨by rfl, by decide, by decide, by decide⟩

/-- C3 witness: the amended statement instantiated at a concrete cache
value. -/
theorem C3_remove_inline_amended_witness :
    removeTagsFromFileContent (str "Content #tag1 #tag2") ⟨true, [str "#tag1"]⟩
        [⟨str "tag1", false⟩] = some (str "Content  #tag2") :=
  (C3_remove_inline_amended ⟨true, [str "#tag1"]⟩).1

/-- C6 counterexample: with the metadata cache reporting frontmatter on a
file whose text has no delimited block, `addTagsToFileContent` performs no
write at all — it does not append `#c` inline as the claim states. -/
theorem C6_regex_mismatch_cex :
    addTagsToFileContent (str "no dashes here") ⟨true, []⟩
      [⟨str "c", false⟩] = none := by decide

/-- C6 (amended): when the metadata cache reports frontmatter but the
raw-text delimiter match fails, `addTagsToFileContent` performs no write at
all: the inline-append branch is the `else` of the cache check and is never
reached, and the failed match has no other handler. -/
theorem C6_regex_mismatch_noop (content : Str) (m : Metadata)
    (S : List FolderTag) (hfm : m.frontmatter = true)
    (hmatch : frontmatterMatch content = none) :
    addTagsToFileContent content m S = none := by
  simp [addTagsToFileContent, hfm, hmatch]

/-- C6 witness: the amended no-op statement at a concrete malformed file. -/
theorem C6_regex_mismatch_noop_witness :
    Metadata.frontmatter ⟨true, []⟩ = true ∧
    frontmatterMatch (str "x") = none ∧
    addTagsToFileContent (str "x") ⟨true, []⟩ [⟨str "c", false⟩] = none :=
  ⟨rfl, by decide, C6_regex_mismatch_noop (str "x") ⟨true, []⟩
    [⟨str "c", false⟩] rfl (by decide)⟩

/-- C7 counterexample: patching the well-formed frontmatter of
`"---\ntitle: x\n---\nBody"` produces a document that no longer contains
the substring `"\n---"` anywhere: the serializer emits no trailing newline,
so the closing delimiter is glued onto the last frontmatter line and no
newline precedes the closing `---`, contradicting the claim that the block
remains delimited with a newline before the closing delimiter. -/
theorem C7_lost_newline_cex :
    addTagsToFileContent (str "---\ntitle: x\n---\nBody") ⟨true, []⟩
        [⟨str "t", false⟩] =
      some (str "---\ntitle: x\ntags: [[object Object]]---\nBody") ∧
    strContains (str "\n---") (str "---\ntitle: x\ntags: [[object Object]]---\nBody")
      = false := by
  exact ⟨by decide, by decide⟩

/-- C7 (amended): when the frontmatter patch does write, the document after
the original block is preserved verbatim: the result is the opening
delimiter and newline, some serialized frontmatter (with no newline before
the reattached closing `---`), then exactly the original post-block text. -/
theorem C7_frame_after_block (content : Str) (m : Metadata)
    (S : List FolderTag) (g rest r : Str) (hfm : m.frontmatter = true)
    (hmatch : frontmatterMatch content = some (g, rest))
    (hw : addTagsToFileContent content m S = some r) :
    ∃ fm, r = str "---\n" ++ fm ++ str "---" ++ rest := by
  simp only [addTagsToFileContent, hfm, hmatch, if_true] at hw
  split at hw
  · exact absurd hw (by simp)
  · split at hw
    · exact absurd hw (by simp)
    · injection hw with h
      exact ⟨_, h.symm⟩

/-- C7 witness: the frame statement at a concrete frontmatter patch. -/
theorem C7_frame_after_block_witness :
    addTagsToFileContent (str "---\na: b\n---\nZ") ⟨true, []⟩
        [⟨str "q", false⟩] =
      some (str "---\na: b\ntags: [[object Object]]---\nZ") ∧
    ∃ fm, str "---\na: b\ntags: [[object Object]]---\nZ" =
      str "---\n" ++ fm ++ str "---" ++ str "\nZ" :=
  ⟨by decide, C7_frame_after_block (str "---\na: b\n---\nZ") ⟨true, []⟩
    [⟨str "q", false⟩] (str "a: b") (str "\nZ") _ rfl (by decide) (by decide)⟩

/-- C8 counterexample: the bulk edit's file filter selects
`"foobar/x.md"` for folder `"foo"` — a file in a sibling folder sharing the
path as a raw string prefix is touched, contradicting the claim. -/
theorem C8_sibling_selected_cex :
    bulkSelect (str "foo") [str "foobar/x.md"] = [str "foobar/x.md"] := by decide

/-- C8 (amended): the bulk edit applies to exactly the files whose path has
the folder's path as a raw string prefix — every file in the folder or a
descendant (path = folder path, slash, remainder) is selected, and every
selected file comes from the vault list and has the folder path as a string
prefix (which may also hold for sibling folders such as `foobar`). -/
theorem C8_prefix_selection (fp sub : Str) (files : List Str) (p : Str)
    (h1 : p ∈ files) (h2 : p = fp ++ '/' :: sub) :
    p ∈ bulkSelect fp files ∧
    ∀ q ∈ bulkSelect fp files, fp.isPrefixOf q = true ∧ q ∈ files := by
  constructor
  · refine List.mem_filter.mpr ⟨h1, ?_⟩
    rw [h2]
    exact isPrefixOf_self_append fp ('/' :: sub)
  · intro q hq
    have := List.mem_filter.mp hq
    exact ⟨this.2, this.1⟩

/-- C8 witness: the selection statement at a concrete descendant file. -/
theorem C8_prefix_selection_witness :
    str "a/f.md" ∈ bulkSelect (str "a") [str "a/f.md"] ∧
    ∀ q ∈ bulkSelect (str "a") [str "a/f.md"],
      (str "a").isPrefixOf q = true ∧ q ∈ [str "a/f.md"] :=
  C8_prefix_selection (str "a") (str "f.md") [str "a/f.md"] (str "a/f.md")
    (by decide) (by decide)

/-- C9 counterexample: with prior direct tags `[{a, direct}]` and submitted
list `[{a, inherited}]`, the code's removed set is `[{a, direct}]` (the
diff compares the `(tag, inherited)` pair, so the name match does not
cancel it) and its added set is the whole submitted list `[{a, inherited}]`
— the claim requires both sets to be empty, since the name `a` appears on
both sides. -/
theorem C9_diff_sets_cex :
    folderSubmitSets [⟨str "a", false⟩] [⟨str "a", true⟩] =
      ([⟨str "a", false⟩], [⟨str "a", true⟩]) := by decide

/-- C9 (amended): on submission, the removed set consists of the prior
direct tags with no submitted entry agreeing on both tag name and inherited
flag, and the added set is the entire submitted list (no diff against the
prior tags is performed for additions). -/
theorem C9_diff_sets_amended (cur new : List FolderTag) :
    (∀ t, t ∈ (folderSubmitSets cur new).1 ↔
      t ∈ cur ∧ ¬ ∃ u ∈ new, u.tag = t.tag ∧ u.inherited = t.inherited) ∧
    (folderSubmitSets cur new).2 = new := by
  constructor
  · intro t
    simp [folderSubmitSets, removedTagsOf, List.mem_filter, List.any_eq_true]
  · rfl

/-- C9 witness: the characterization at concrete lists. -/
theorem C9_diff_sets_amended_witness :
    (∀ t, t ∈ (folderSubmitSets [⟨str "b", false⟩] [⟨str "b", false⟩]).1 ↔
      t ∈ [(⟨str "b", false⟩ : FolderTag)] ∧
        ¬ ∃ u ∈ [(⟨str "b", false⟩ : FolderTag)],
          u.tag = t.tag ∧ u.inherited = t.inherited) ∧
    (folderSubmitSets [⟨str "b", false⟩] [⟨str "b", false⟩]).2 =
      [⟨str "b", false⟩] :=
  C9_diff_sets_amended [⟨str "b", false⟩] [⟨str "b", false⟩]

/-- C10 counterexample: the line `"a:"` has an empty value after trimming,
yet `parseYaml` does not skip it — it stores the key `a` with an
empty-string scalar, so the claim that an empty value causes the line to be
skipped is false. -/
theorem C10_empty_value_cex :
    parseYaml (str "a:") = [(str "a", .scalar [])] := by decide

/-- C10 (amended): `parseYaml` is total by construction, and a line lacking
a `:` separator or whose trimmed key is empty is silently skipped — deleting
such a line from the input leaves the parse unchanged; a line with a
separator and non-empty key but empty value is stored as an empty-string
scalar, not skipped. -/
theorem C10_bad_line_skipped (ls1 ls2 : List Str) (line : Str)
    (h : badYamlLine line) :
    parseYamlLines (ls1 ++ line :: ls2) = parseYamlLines (ls1 ++ ls2) := by
  unfold parseYamlLines
  rw [List.foldl_append, List.foldl_append, List.foldl_cons,
    parseLineStep_skip _ _ h]

/-- C10 witness: skipping a separator-less line at a concrete input. -/
theorem C10_bad_line_skipped_witness :
    badYamlLine (str "no separator") ∧
    parseYamlLines ([str "k: v"] ++ str "no separator" :: [str "t: u"]) =
      parseYamlLines ([str "k: v"] ++ [str "t: u"]) :=
  ⟨Or.inl (by decide),
    C10_bad_line_skipped [str "k: v"] [str "t: u"] (str "no separator")
      (Or.inl (by decide))⟩

lemma extractAux_split (x : Str) : ∀ st,
    extractAux st x = extractPartial st x ++ flushState (finalState st x) := by
  induction x with
  | nil => intro st; cases st <;> simp [extractAux, extractPartial, finalState]
  | cons c rest ih =>
    have h35 : isWordChar '#' = false := by decide
    intro st
    cases st with
    | none =>
      by_cases hc : c = '#' <;>
        simp [extractAux, extractPartial, finalState, hc, h35, ih]
    | some acc =>
      by_cases hw : isWordChar c
      · simp [extractAux, extractPartial, finalState, hw, ih]
      · by_cases hc : c = '#' <;>
          simp [extractAux, extractPartial, finalState, hw, hc, h35, ih]

lemma extractAux_append (x y : Str) : ∀ st,
    extractAux st (x ++ y) = extractPartial st x ++ extractAux (finalState st x) y := by
  induction x with
  | nil => intro st; simp [extractPartial, finalState]
  | cons c rest ih =>
    have h35 : isWordChar '#' = false := by decide
    intro st
    cases st with
    | none =>
      by_cases hc : c = '#' <;>
        simp [extractAux, extractPartial, finalState, hc, h35, ih]
    | some acc =>
      by_cases hw : isWordChar c
      · simp [extractAux, extractPartial, finalState, hw, ih]
      · by_cases hc : c = '#' <;>
          simp [extractAux, extractPartial, finalState, hw, hc, h35, ih]

lemma extractAux_all_skip (y : Str)
    (hy : ∀ c ∈ y, isWordChar c = false ∧ c ≠ '#') : ∀ st,
    extractAux st y = flushState st := by
  induction y with
  | nil => intro st; simp [extractAux]
  | cons c rest ih =>
    intro st
    obtain ⟨hw, hc⟩ := hy c (List.mem_cons_self c rest)
    have ihr := ih (fun d hd => hy d (List.mem_cons_of_mem c hd))
    cases st with
    | none => simp [extractAux, hc, ihr, flushState]
    | some acc => simp [extractAux, hw, hc, ihr, flushState]

lemma extractAux_skip_char (ch : Char) (hw : isWordChar ch = false)
    (hc : ch ≠ '#') (st : Option Str) (rest : Str) :
    extractAux st (ch :: rest) = flushState st ++ extractAux none rest := by
  cases st with
  | none => simp [extractAux, hc, flushState]
  | some acc => simp [extractAux, hw, hc]

lemma extractAux_word_run (n : Str) : ∀ (acc : Str) (y : Str),
    (∀ ch ∈ n, isWordChar ch = true) →
    extractAux (some acc) (n ++ y) = extractAux (some (acc ++ n)) y := by
  induction n with
  | nil => intro acc y _; simp
  | cons ch rest ih =>
    intro acc y h
    have hch := h ch (List.mem_cons_self ch rest)
    have ihr := ih (acc ++ [ch]) y (fun d hd => h d (List.mem_cons_of_mem ch hd))
    have hstep : extractAux (some acc) ((ch :: rest) ++ y) =
        extractAux (some (acc ++ [ch])) (rest ++ y) := by
      simp [extractAux, hch]
    rw [hstep, ihr]
    have hacc : (acc ++ [ch]) ++ rest = acc ++ ch :: rest := by simp
    rw [hacc]

lemma trimEnd_decomp (s : Str) : jsTrimEnd s ++ trailWs s = s := by
  rw [jsTrimEnd, trailWs, ← List.reverse_append,
    List.takeWhile_append_dropWhile, List.reverse_reverse]

lemma trailWs_ws (s : Str) : ∀ c ∈ trailWs s, isJsWs c = true := by
  intro c hc
  rw [trailWs, List.mem_reverse] at hc
  exact List.mem_takeWhile_imp hc

lemma jsWs_skip (c : Char) (h : isJsWs c = true) :
    isWordChar c = false ∧ c ≠ '#' := by
  simp only [isJsWs, Bool.or_eq_true, beq_iff_eq] at h
  rcases h with (((((h | h) | h) | h) | h) | h) <;> subst h <;>
    exact ⟨by decide, by decide⟩

/-- Scanning trimmed content followed by a blank line and a tag string finds
exactly the original file's tags followed by the tag string's tags. -/
lemma extractTags_append_tagString (c ts : Str) :
    extractTags (jsTrimEnd c ++ str "\n\n" ++ ts) =
      extractTags c ++ extractAux none ts := by
  have hws : ∀ d ∈ trailWs c, isWordChar d = false ∧ d ≠ '#' :=
    fun d hd => jsWs_skip d (trailWs_ws c d hd)
  have h1 : extractTags c =
      extractPartial none (jsTrimEnd c) ++
        flushState (finalState none (jsTrimEnd c)) := by
    conv_lhs => rw [extractTags, ← trimEnd_decomp c]
    rw [extractAux_append, extractAux_all_skip (trailWs c) hws]
  have h2 : jsTrimEnd c ++ str "\n\n" ++ ts =
      jsTrimEnd c ++ ('\n' :: '\n' :: ts) := by
    simp [str]
  rw [extractTags, h2, extractAux_append,
    extractAux_skip_char '\n' (by decide) (by decide),
    extractAux_skip_char '\n' (by decide) (by decide), h1]
  simp [flushState]

lemma tagString_extract (ns : List Str)
    (h : ∀ x ∈ ns, x ≠ [] ∧ ∀ ch ∈ x, isWordChar ch = true) :
    ∀ x ∈ ns, ('#' :: x) ∈
      extractAux none (joinSep [' '] (ns.map (fun t => '#' :: t))) := by
  induction ns with
  | nil => intro x hx; cases hx
  | cons n rest ih =>
    intro x hx
    obtain ⟨hn0, hnw⟩ := h n (List.mem_cons_self n rest)
    cases rest with
    | nil =>
      have hone : extractAux none ('#' :: n) = ['#' :: n] := by
        simp only [extractAux, if_pos rfl]
        rw [← List.append_nil n, extractAux_word_run n [] [] hnw]
        simp [extractAux, flushState, hn0]
      have hx' : x = n := by simpa using hx
      subst hx'
      have hj : joinSep [' '] (List.map (fun t => '#' :: t) [x]) = '#' :: x := by
        simp [joinSep]
      rw [hj, hone]
      simp
    | cons r rs =>
      have hshape : joinSep [' ']
          ((('#' :: n) :: ('#' :: r) :: rs.map (fun t => '#' :: t))) =
          '#' :: (n ++ ' ' ::
            joinSep [' '] (('#' :: r) :: rs.map (fun t => '#' :: t))) := by
        show ('#' :: n) ++ [' '] ++ _ = _
        simp
      have hrun : extractAux none (joinSep [' ']
          ((('#' :: n) :: ('#' :: r) :: rs.map (fun t => '#' :: t)))) =
          ('#' :: n) :: extractAux none
            (joinSep [' '] (('#' :: r) :: rs.map (fun t => '#' :: t))) := by
        rw [hshape]
        simp only [extractAux, if_pos rfl]
        rw [extractAux_word_run n [] _ hnw,
          extractAux_skip_char ' ' (by decide) (by decide)]
        simp [flushState, hn0]
      simp only [List.map_cons] at hrun ⊢
      rw [hrun]
      rcases List.mem_cons.mp hx with hx1 | hx1
      · subst hx1
        exact List.mem_cons_self _ _
      · exact List.mem_cons_of_mem _
          (ih (fun y hy => h y (List.mem_cons_of_mem n hy)) x hx1)

lemma addTags_none_of_all_present (c1 : Str) (m : Metadata)
    (S : List FolderTag)
    (h : ∀ t ∈ S, (m.tags.map (fun x => x.drop 1)).contains t.tag = true) :
    addTagsToFileContent c1 m S = none := by
  by_cases h1 : S = []
  · simp [addTagsToFileContent, h1]
  · have hfil : S.filter
        (fun t => !(m.tags.map (fun x => x.drop 1)).contains t.tag) = [] := by
      rw [List.filter_eq_nil_iff]
      intro t ht
      simp only [h t ht, Bool.not_true, Bool.false_eq_true, not_false_eq_true]
    simp only [addTagsToFileContent, if_neg h1, hfil]
    simp

/-- C5 counterexample: on `"---\ntags: [a]\n---\nX"` with the cache
reflecting each state, the first application of `{c}` writes the broken
block `"---\ntags: [a, [object Object]]---\nX"`; the cache computed from
that text no longer sees frontmatter or any inline `c`, so the second
application writes again, appending `"\n\n#c"` — the content changes and a
second write occurs, contradicting idempotence. -/
theorem C5_frontmatter_not_idempotent_cex :
    addTagsToFileContent (str "---\ntags: [a]\n---\nX")
        (mkCache (str "---\ntags: [a]\n---\nX")) [⟨str "c", false⟩] =
      some (str "---\ntags: [a, [object Object]]---\nX") ∧
    addTagsToFileContent (str "---\ntags: [a, [object Object]]---\nX")
        (mkCache (str "---\ntags: [a, [object Object]]---\nX"))
        [⟨str "c", false⟩] =
      some (str "---\ntags: [a, [object Object]]---\nX\n\n#c") ∧
    str "---\ntags: [a, [object Object]]---\nX\n\n#c" ≠
      str "---\ntags: [a, [object Object]]---\nX" := by
  exact ⟨by decide, by decide, by decide⟩

/-- C5 (amended): `addTagsToFileContent` is idempotent for every file whose
metadata cache reports no frontmatter, for tag names that are non-empty
runs of word characters: with the cache reflecting the first write, the
second application of the same tag set performs no write, leaving the
content of the first application unchanged. -/
theorem C5_idempotent_no_frontmatter (c : Str) (S : List FolderTag)
    (hfm : (mkCache c).frontmatter = false)
    (hS : ∀ t ∈ S, t.tag ≠ [] ∧ ∀ ch ∈ t.tag, isWordChar ch = true) :
    addTagsToFileContent ((addTagsToFileContent c (mkCache c) S).getD c)
      (mkCache ((addTagsToFileContent c (mkCache c) S).getD c)) S = none := by
  cases hr : addTagsToFileContent c (mkCache c) S with
  | none => simp only [Option.getD_none]; exact hr
  | some c1 =>
    simp only [Option.getD_some]
    simp only [addTagsToFileContent, hfm, Bool.false_eq_true, if_false] at hr
    split at hr
    · simp at hr
    · split at hr
      · simp at hr
      · injection hr with hc1
        rename_i hS0 hSF
        apply addTags_none_of_all_present
        intro t ht
        refine List.elem_iff.mpr ?_
        have htags : (mkCache c1).tags =
            extractTags c ++ extractAux none
              (joinSep [' ']
                ((S.filter (fun t =>
                  !((mkCache c).tags.map (fun x => x.drop 1)).contains t.tag)).map
                  (fun t => '#' :: t.tag))) := by
          rw [mkCache, ← hc1, extractTags_append_tagString]
        by_cases hpres :
            ((mkCache c).tags.map (fun x => x.drop 1)).contains t.tag = true
        · have hpres' : t.tag ∈ (mkCache c).tags.map (fun x => x.drop 1) :=
            List.elem_iff.mp hpres
          rw [htags]
          simp only [List.map_append, List.mem_append]
          left
          exact hpres'
        · have htF : t ∈ S.filter (fun t =>
              !((mkCache c).tags.map (fun x => x.drop 1)).contains t.tag) := by
            rw [List.mem_filter]
            exact ⟨ht, by simp [Bool.not_eq_true] at hpres ⊢; exact hpres⟩
          have hmem := tagString_extract
            ((S.filter (fun t =>
              !((mkCache c).tags.map (fun x => x.drop 1)).contains t.tag)).map
              (fun t => t.tag))
            (by
              intro x hx
              rw [List.mem_map] at hx
              obtain ⟨u, hu, hux⟩ := hx
              have := hS u (List.mem_of_mem_filter hu)
              rw [← hux]
              exact this)
            t.tag (List.mem_map_of_mem (fun t => t.tag) htF)
          rw [htags]
          simp only [List.map_append, List.mem_append]
          right
          rw [List.map_map] at hmem
          rw [List.mem_map]
          exact ⟨'#' :: t.tag, hmem, rfl⟩

lemma jsSplitChar_append_sep (c : Char) (seg rest : Str) (h : c ∉ seg) :
    jsSplitChar c (seg ++ c :: rest) = seg :: jsSplitChar c rest := by
  induction seg with
  | nil =>
    simp only [List.nil_append, jsSplitChar]
    cases e : jsSplitChar c rest with
    | nil => exact absurd e (jsSplitChar_ne_nil c rest)
    | cons hd tl => simp
  | cons x xs ih =>
    simp only [List.mem_cons, not_or] at h
    have ihr := ih h.2
    show jsSplitChar c (x :: (xs ++ c :: rest)) = (x :: xs) :: jsSplitChar c rest
    simp only [jsSplitChar, List.append_eq]
    rw [ihr]
    show (if x = c then [] :: xs :: jsSplitChar c rest
        else (x :: xs) :: jsSplitChar c rest) = (x :: xs) :: jsSplitChar c rest
    rw [if_neg (fun hc => h.1 hc.symm)]

lemma split_joinPath (parts : List Str) (h0 : parts ≠ [])
    (h : ∀ p ∈ parts, '/' ∉ p) :
    jsSplitChar '/' (joinPath parts) = parts := by
  induction parts with
  | nil => cases h0 rfl
  | cons p rest ih =>
    cases rest with
    | nil => exact jsSplitChar_nosep '/' p (h p (List.mem_cons_self p []))
    | cons q rs =>
      have : joinPath (p :: q :: rs) = p ++ '/' :: joinPath (q :: rs) := rfl
      rw [this, jsSplitChar_append_sep '/' p _ (h p (List.mem_cons_self p _)),
        ih (by simp) (fun d hd => h d (List.mem_cons_of_mem p hd))]

lemma pathStep_nil_left (part : Str) : pathStep [] part = part := by
  simp [pathStep]

lemma pathStep_ne (cp part : Str) (h : cp ≠ []) :
    pathStep cp part = cp ++ '/' :: part := by
  simp [pathStep, h]

lemma pathFrom_cons (cp p : Str) (rest : List Str) :
    pathFrom cp (p :: rest) = pathFrom (pathStep cp p) rest := rfl

lemma pathFrom_ne_nil_eq (rest : List Str) : ∀ cp : Str, cp ≠ [] → rest ≠ [] →
    pathFrom cp rest = cp ++ '/' :: joinPath rest := by
  induction rest with
  | nil => intro cp _ h; cases h rfl
  | cons q rs ih =>
    intro cp hcp _
    cases rs with
    | nil =>
      rw [pathFrom_cons, pathStep_ne _ _ hcp]
      rfl
    | cons r rs' =>
      have hne : pathStep cp q ≠ [] := by
        rw [pathStep_ne _ _ hcp]
        simp
      rw [pathFrom_cons, ih (pathStep cp q) hne (by simp),
        pathStep_ne _ _ hcp]
      show (cp ++ '/' :: q) ++ '/' :: joinPath (r :: rs') = _
      simp [joinPath]

lemma pathFrom_nil_eq (parts : List Str) (h0 : parts ≠ [])
    (h1 : ∀ p ∈ parts, p ≠ []) : pathFrom [] parts = joinPath parts := by
  cases parts with
  | nil => cases h0 rfl
  | cons p rest =>
    rw [pathFrom_cons, pathStep_nil_left]
    cases rest with
    | nil => rfl
    | cons q rs =>
      rw [pathFrom_ne_nil_eq _ p (h1 p (List.mem_cons_self p _)) (by simp)]
      rfl

lemma inheritLoop_append (S : List FolderRec) (xs ys : List Str) : ∀ cp acc,
    inheritLoop S cp acc (xs ++ ys) =
      inheritLoop S (pathFrom cp xs) (inheritLoop S cp acc xs) ys := by
  induction xs with
  | nil => intro cp acc; rfl
  | cons x xs' ih =>
    intro cp acc
    simp only [List.cons_append, inheritLoop, List.append_eq]
    rw [ih]
    rfl

/-- C5 witness: the amended idempotence at a plain file with no
frontmatter. -/
theorem C5_idempotent_no_frontmatter_witness :
    (mkCache (str "Hello")).frontmatter = false ∧
    addTagsToFileContent
      ((addTagsToFileContent (str "Hello") (mkCache (str "Hello"))
        [⟨str "c", false⟩]).getD (str "Hello"))
      (mkCache ((addTagsToFileContent (str "Hello") (mkCache (str "Hello"))
        [⟨str "c", false⟩]).getD (str "Hello")))
      [⟨str "c", false⟩] = none :=
  ⟨by decide, C5_idempotent_no_frontmatter (str "Hello") [⟨str "c", false⟩]
    (by decide) (by decide)⟩


lemma dropLast_append_ne {α : Type} (l1 l2 : List α) (h : l2 ≠ []) :
    (l1 ++ l2).dropLast = l1 ++ l2.dropLast := by
  conv_lhs => rw [← List.dropLast_append_getLast h]
  rw [← List.append_assoc, List.dropLast_concat]

/-- A tag entry already marked inherited survives every remaining step of
the walk: a step either leaves the accumulator unchanged or re-marks it,
and re-marking fixes entries whose flag is already `true`. -/
lemma inheritLoop_mem_true (S : List FolderRec) : ∀ (parts : List Str)
    (cp : Str) (acc : List FolderTag) (x : Str),
    (⟨x, true⟩ : FolderTag) ∈ acc →
    (⟨x, true⟩ : FolderTag) ∈ inheritLoop S cp acc parts := by
  intro parts
  induction parts with
  | nil => intro cp acc x hx; exact hx
  | cons p rest ih =>
    intro cp acc x hx
    simp only [inheritLoop]
    cases S.find? (fun ft => ft.path == pathStep cp p) with
    | none => exact ih (pathStep cp p) acc x hx
    | some ft =>
      refine ih (pathStep cp p) _ x ?_
      refine List.mem_append_left _ ?_
      exact List.mem_map_of_mem remark hx

/-- When the record looked up at the full walked path exists, its tags all
enter the accumulator re-marked inherited at the final step. -/
lemma inheritLoop_find_last (S : List FolderRec) : ∀ (xs : List Str)
    (cp : Str) (acc : List FolderTag) (R : FolderRec), xs ≠ [] →
    S.find? (fun ft => ft.path == pathFrom cp xs) = some R →
    ∀ t ∈ R.tags, (⟨t.tag, true⟩ : FolderTag) ∈ inheritLoop S cp acc xs := by
  intro xs
  induction xs with
  | nil => intro cp acc R h; cases h rfl
  | cons p rest ih =>
    intro cp acc R _ hfind t ht
    cases rest with
    | nil =>
      have hf : S.find? (fun ft => ft.path == pathStep cp p) = some R := by
        simpa [pathFrom] using hfind
      simp only [inheritLoop]
      rw [hf]
      exact List.mem_append_right _ (List.mem_map_of_mem remark ht)
    | cons q rs =>
      have hfind' : S.find?
          (fun ft => ft.path == pathFrom (pathStep cp p) (q :: rs)) = some R :=
        hfind
      simp only [inheritLoop]
      cases S.find? (fun ft => ft.path == pathStep cp p) with
      | none => exact ih (pathStep cp p) acc R (by simp) hfind' t ht
      | some ft => exact ih (pathStep cp p) _ R (by simp) hfind' t ht

/-- Tags of a record found at any proper prefix of the walked parts end up
in the walk's result, marked inherited. -/
lemma inheritLoop_prefix_record (S : List FolderRec) (xs ys : List Str)
    (cp : Str) (acc : List FolderTag) (R : FolderRec) (hxs : xs ≠ [])
    (hfind : S.find? (fun ft => ft.path == pathFrom cp xs) = some R) :
    ∀ t ∈ R.tags,
      (⟨t.tag, true⟩ : FolderTag) ∈ inheritLoop S cp acc (xs ++ ys) := by
  intro t ht
  rw [inheritLoop_append]
  exact inheritLoop_mem_true S ys _ _ _
    (inheritLoop_find_last S xs cp acc R hxs hfind t ht)

/-- Tags of a record found at a walked ancestor prefix of a path appear in
`getInheritedTags`, marked inherited. -/
lemma getInheritedTags_mem (S : List FolderRec) (path : Str)
    (xs ys : List Str) (R : FolderRec)
    (hsplit : (jsSplitChar '/' path).dropLast = xs ++ ys) (hxs : xs ≠ [])
    (hfind : S.find? (fun ft => ft.path == pathFrom [] xs) = some R) :
    ∀ t ∈ R.tags, (⟨t.tag, true⟩ : FolderTag) ∈ getInheritedTags S path := by
  intro t ht
  rw [getInheritedTags, hsplit]
  exact inheritLoop_prefix_record S xs ys [] [] R hxs hfind t ht

/-- C4: for every settings root and every three folder paths A, B, C where
A is a strict path-prefix ancestor of B (B's segments are A's followed by a
non-empty segment list) and B of C, each having its own direct record per
the settings lookup, `getFolderTags(C)` contains every tag of A's record
and every tag of B's record marked inherited, and every direct tag of C's
record (stored in the persisted direct form) marked direct.  Segments are
non-empty and slash-free, as the data model requires of folder paths. -/
theorem C4_ancestor_chain (S : List FolderRec) (pA m1 m2 : List Str)
    (RA RB RC : FolderRec) (hpA : pA ≠ []) (_hm1 : m1 ≠ []) (hm2 : m2 ≠ [])
    (hseg : ∀ p ∈ pA ++ m1 ++ m2, p ≠ [] ∧ '/' ∉ p)
    (hfA : S.find? (fun ft => ft.path == joinPath pA) = some RA)
    (hfB : S.find? (fun ft => ft.path == joinPath (pA ++ m1)) = some RB)
    (hfC : S.find? (fun ft => ft.path == joinPath (pA ++ m1 ++ m2)) = some RC)
    (hC : ∀ t ∈ RC.tags, t.inherited = false) :
    (∀ t ∈ RA.tags, (⟨t.tag, true⟩ : FolderTag) ∈
      getFolderTags S (joinPath (pA ++ m1 ++ m2))) ∧
    (∀ t ∈ RB.tags, (⟨t.tag, true⟩ : FolderTag) ∈
      getFolderTags S (joinPath (pA ++ m1 ++ m2))) ∧
    (∀ t ∈ RC.tags, (⟨t.tag, false⟩ : FolderTag) ∈
      getFolderTags S (joinPath (pA ++ m1 ++ m2))) := by
  have hseg1 : ∀ p ∈ pA ++ m1 ++ m2, p ≠ [] := fun p hp => (hseg p hp).1
  have hslash : ∀ p ∈ pA ++ m1 ++ m2, '/' ∉ p := fun p hp => (hseg p hp).2
  have hsegA : ∀ p ∈ pA, p ≠ [] := fun p hp =>
    hseg1 p (List.mem_append_left _ (List.mem_append_left _ hp))
  have hsegAB : ∀ p ∈ pA ++ m1, p ≠ [] := fun p hp =>
    hseg1 p (List.mem_append_left _ hp)
  have hAB : pA ++ m1 ≠ [] := fun he => hpA (List.append_eq_nil.mp he).1
  have htot : pA ++ m1 ++ m2 ≠ [] := fun he => hAB (List.append_eq_nil.mp he).1
  have hsplit : jsSplitChar '/' (joinPath (pA ++ m1 ++ m2)) =
      pA ++ m1 ++ m2 := split_joinPath _ htot hslash
  have hsplitdrop : (jsSplitChar '/' (joinPath (pA ++ m1 ++ m2))).dropLast =
      (pA ++ m1) ++ m2.dropLast := by
    rw [hsplit, dropLast_append_ne _ _ hm2]
  have hpfA : pathFrom [] pA = joinPath pA := pathFrom_nil_eq pA hpA hsegA
  have hpfAB : pathFrom [] (pA ++ m1) = joinPath (pA ++ m1) :=
    pathFrom_nil_eq _ hAB hsegAB
  refine ⟨?_, ?_, ?_⟩
  · intro t ht
    rw [getFolderTags, hfC]
    refine List.mem_append_right _ ?_
    refine getInheritedTags_mem S _ pA (m1 ++ m2.dropLast) RA ?_ hpA ?_ t ht
    · rw [hsplitdrop, List.append_assoc]
    · rw [hpfA]
      exact hfA
  · intro t ht
    rw [getFolderTags, hfC]
    refine List.mem_append_right _ ?_
    refine getInheritedTags_mem S _ (pA ++ m1) m2.dropLast RB hsplitdrop
      hAB ?_ t ht
    rw [hpfAB]
    exact hfB
  · intro t ht
    rw [getFolderTags, hfC]
    have hte : (⟨t.tag, false⟩ : FolderTag) = t := by
      obtain ⟨tg, inh⟩ := t
      have := hC ⟨tg, inh⟩ ht
      simp at this
      rw [this]
    rw [hte]
    exact List.mem_append_left _ ht

/-- C4 witness: the chain statement for folders `a`, `a/x/y` and
`a/x/y/z/w` — ancestors that are not immediate parents — with direct tags
`ta`, `tb`, `tc`. -/
theorem C4_ancestor_chain_witness :
    (([str "a"] : List Str) ≠ []) ∧ (([str "x", str "y"] : List Str) ≠ []) ∧
    (([str "z", str "w"] : List Str) ≠ []) ∧
    (∀ p ∈ [str "a"] ++ [str "x", str "y"] ++ [str "z", str "w"],
      p ≠ [] ∧ '/' ∉ p) ∧
    ([(⟨str "a", [⟨str "ta", false⟩]⟩ : FolderRec),
      ⟨str "a/x/y", [⟨str "tb", false⟩]⟩,
      ⟨str "a/x/y/z/w", [⟨str "tc", false⟩]⟩].find?
        (fun ft => ft.path == joinPath [str "a"]) =
      some ⟨str "a", [⟨str "ta", false⟩]⟩) ∧
    ([(⟨str "a", [⟨str "ta", false⟩]⟩ : FolderRec),
      ⟨str "a/x/y", [⟨str "tb", false⟩]⟩,
      ⟨str "a/x/y/z/w", [⟨str "tc", false⟩]⟩].find?
        (fun ft => ft.path == joinPath ([str "a"] ++ [str "x", str "y"])) =
      some ⟨str "a/x/y", [⟨str "tb", false⟩]⟩) ∧
    ([(⟨str "a", [⟨str "ta", false⟩]⟩ : FolderRec),
      ⟨str "a/x/y", [⟨str "tb", false⟩]⟩,
      ⟨str "a/x/y/z/w", [⟨str "tc", false⟩]⟩].find?
        (fun ft => ft.path ==
          joinPath ([str "a"] ++ [str "x", str "y"] ++ [str "z", str "w"])) =
      some ⟨str "a/x/y/z/w", [⟨str "tc", false⟩]⟩) ∧
    ((∀ t ∈ [(⟨str "ta", false⟩ : FolderTag)], (⟨t.tag, true⟩ : FolderTag) ∈
      getFolderTags [⟨str "a", [⟨str "ta", false⟩]⟩,
        ⟨str "a/x/y", [⟨str "tb", false⟩]⟩,
        ⟨str "a/x/y/z/w", [⟨str "tc", false⟩]⟩]
        (joinPath ([str "a"] ++ [str "x", str "y"] ++ [str "z", str "w"]))) ∧
    (∀ t ∈ [(⟨str "tb", false⟩ : FolderTag)], (⟨t.tag, true⟩ : FolderTag) ∈
      getFolderTags [⟨str "a", [⟨str "ta", false⟩]⟩,
        ⟨str "a/x/y", [⟨str "tb", false⟩]⟩,
        ⟨str "a/x/y/z/w", [⟨str "tc", false⟩]⟩]
        (joinPath ([str "a"] ++ [str "x", str "y"] ++ [str "z", str "w"]))) ∧
    (∀ t ∈ [(⟨str "tc", false⟩ : FolderTag)], (⟨t.tag, false⟩ : FolderTag) ∈
      getFolderTags [⟨str "a", [⟨str "ta", false⟩]⟩,
        ⟨str "a/x/y", [⟨str "tb", false⟩]⟩,
        ⟨str "a/x/y/z/w", [⟨str "tc", false⟩]⟩]
        (joinPath ([str "a"] ++ [str "x", str "y"] ++ [str "z", str "w"])))) :=
  ⟨by decide, by decide, by decide, by decide, by decide, by decide, by decide,
    C4_ancestor_chain
      [⟨str "a", [⟨str "ta", false⟩]⟩, ⟨str "a/x/y", [⟨str "tb", false⟩]⟩,
        ⟨str "a/x/y/z/w", [⟨str "tc", false⟩]⟩]
      [str "a"] [str "x", str "y"] [str "z", str "w"]
      ⟨str "a", [⟨str "ta", false⟩]⟩ ⟨str "a/x/y", [⟨str "tb", false⟩]⟩
      ⟨str "a/x/y/z/w", [⟨str "tc", false⟩]⟩
      (by decide) (by decide) (by decide) (by decide) (by decide) (by decide)
      (by decide) (by decide)⟩
